import Mathlib

/-!
Verification of the WordPress-to-Wreadom import utility.

The development shallowly embeds the relevant parts of the repository:
the WordPress service helpers (getAuthorName, getFeaturedMediaUrl,
fetchAuthorsFromRecentPosts), the author-discovery fallback chain
(discoverAuthors), the in-memory date filter (filteredPosts), the
selection toggles (toggleSelect, toggleAll) and the import pipeline
(handleImport) of App.tsx.  External effects are determinized: the
outcome of each HTTP call is a parameter (an Outcome value or an
upload function returning Option), the Firestore sink is a list of
Book values that addDoc appends to, and the random chapter-id
generator is an explicit supply of strings.  DOMPurify with no allowed
tags is modelled as a tag-stripping scan, and the DOMParser
textContent step as decoding of the common HTML entities; both keep
the structure of the source pipeline, including the textContent
fallback to the undecoded string.
-/

/-- A rendered HTML field of the WordPress REST payload, mirroring the
nested shape title.rendered / content.rendered / excerpt.rendered. -/
structure Rendered where
  rendered : String
deriving DecidableEq

/-- An entry of the embedded author array of a post. -/
structure EmbAuthor where
  id : Nat
  name : String
deriving DecidableEq

/-- A WordPress post.  The optional embedded author array and the
optional embedded featured-media array are flattened to lists: a
missing or empty array is the empty list, and the source only ever
reads element 0, so head? reproduces the optional chaining of the
source.  Dates are parsed timestamps (the source compares
getTime() values as numbers). -/
structure WPPost where
  id : Nat
  title : Rendered
  content : Rendered
  excerpt : Rendered
  featured_media : Nat
  author : Nat
  date : Int
  embeddedAuthors : List EmbAuthor
  featuredMediaUrls : List String
deriving DecidableEq

/-- getAuthorName of wpService: the embedded author name when the
embedded array has a first element, else the fallback label built from
the numeric author id. -/
def getAuthorName (post : WPPost) : String :=
  match post.embeddedAuthors.head? with
  | some a => a.name
  | none => "User " ++ toString post.author

/-- getFeaturedMediaUrl of wpService: source_url of the first embedded
featured-media entry, when present. -/
def getFeaturedMediaUrl (post : WPPost) : Option String :=
  post.featuredMediaUrls.head?

/-- An author entry as produced by the author fetchers: the id and
name pairs that populate availableAuthors. -/
structure WAuthor where
  id : Nat
  name : String
deriving DecidableEq

/-- One JS-Map set operation on an association list kept in insertion
order: an existing key keeps its position and gets the new value, a
new key goes to the back.  This is the Map used by
fetchAuthorsFromRecentPosts. -/
def mapSet (m : List (Nat × WAuthor)) (k : Nat) (v : WAuthor) : List (Nat × WAuthor) :=
  if m.any (fun kv => decide (kv.1 = k)) then
    m.map (fun kv => if kv.1 = k then (k, v) else kv)
  else m ++ [(k, v)]

/-- One iteration of the forEach loop of fetchAuthorsFromRecentPosts:
record the post author id with the resolved display name. -/
def authorStep (m : List (Nat × WAuthor)) (post : WPPost) : List (Nat × WAuthor) :=
  mapSet m post.author { id := post.author, name := getAuthorName post }

/-- fetchAuthorsFromRecentPosts of wpService, applied to the posts the
recent-posts query returned: fold the posts into the uniqueAuthors map
and return its values. -/
def fetchAuthorsFromRecentPosts (posts : List WPPost) : List WAuthor :=
  (posts.foldl authorStep []).map (fun kv => kv.2)

/-- The outcome of one author-fetching HTTP call: a resolved author
list, or a thrown error. -/
inductive FetchOutcome where
  | ok (authors : List WAuthor)
  | err
deriving DecidableEq

/-- The component state discoverAuthors reads and writes. -/
structure DiscoverState where
  availableAuthors : List WAuthor
  status : String
deriving DecidableEq

/-- discoverAuthors of App.tsx.  The three possible calls are given by
their outcomes: direct is the authenticated users listing
(fetchAuthorsDirectly), recentAuth the authenticated recent-posts
discovery, recentPub the unauthenticated one.  hasAuth tells whether
WordPress credentials are set.  The captured status is the state the
closure saw, checked by the code before clearing the banner; the
intermediate setStatus calls are sequenced exactly as in the source,
so the value recorded here is the one left once the call finishes. -/
def discoverAuthors (hasAuth : Bool) (direct recentAuth recentPub : FetchOutcome)
    (st : DiscoverState) : DiscoverState :=
  let captured := st.status
  let attempt : Option (List WAuthor × String) :=
    if hasAuth then
      match direct with
      | .ok l => some (l, "Syncing authors...")
      | .err =>
        match recentAuth with
        | .ok l => some (l, "Syncing authors...")
        | .err =>
          match recentPub with
          | .ok l => some (l, "Logged in, but restricted. Using public discovery.")
          | .err => none
    else
      match recentPub with
      | .ok l => some (l, "Syncing authors...")
      | .err => none
  match attempt with
  | some (authors, stat) =>
    if authors.length > 0 then
      { availableAuthors := authors,
        status := if captured = "" then "" else stat }
    else
      { st with status := "No authors found on the site." }
  | none =>
    { st with status := "Unable to sync authors. Site might be restricted." }

/-- The fallback chain as the spec words it: with credentials, the
first strategy that does not fail among direct listing, authenticated
recent-posts discovery, unauthenticated recent-posts discovery;
without credentials, only the unauthenticated discovery. -/
def specAuthorChain (hasAuth : Bool) (direct recentAuth recentPub : FetchOutcome) :
    FetchOutcome :=
  if hasAuth then
    match direct with
    | .ok l => .ok l
    | .err =>
      match recentAuth with
      | .ok l => .ok l
      | .err => recentPub
  else recentPub

/-- Scan that removes HTML tags: characters between an opening angle
bracket and the matching closing one are dropped.  This models
DOMPurify.sanitize with an empty allowed-tags list as the source uses
it on titles and excerpts.  The Bool says whether the scan is inside a
tag. -/
def stripTagsAux : Bool → List Char → List Char
  | _, [] => []
  | true, c :: rest =>
    if c = '>' then stripTagsAux false rest else stripTagsAux true rest
  | false, c :: rest =>
    if c = '<' then stripTagsAux true rest else c :: stripTagsAux false rest

/-- Tag removal on strings. -/
def stripTags (s : String) : String :=
  (stripTagsAux false s.data).asString

/-- The entity table of the decoder: what follows an ampersand and the
character it decodes to. -/
def entityTable : List (List Char × Char) :=
  [(['a', 'm', 'p', ';'], '&'),
   (['l', 't', ';'], '<'),
   (['g', 't', ';'], '>'),
   (['q', 'u', 'o', 't', ';'], '"')]

/-- Look for a known entity at the head of the remaining input; the
result is the decoded character and how many characters the entity
occupies. -/
def matchEntity (cs : List Char) : Option (Char × Nat) :=
  List.foldr
    (fun pc acc =>
      if cs.take pc.1.length = pc.1 then some (pc.2, pc.1.length) else acc)
    none entityTable

/-- Entity decoding: each recognised entity after an ampersand becomes
its character, everything else is copied.  This models the DOMParser
textContent step the source applies to the tag-stripped title. -/
def decodeEntitiesAux : List Char → List Char
  | [] => []
  | c :: rest =>
    if c = '&' then
      match matchEntity rest with
      | some (ch, n) => ch :: decodeEntitiesAux (rest.drop n)
      | none => c :: decodeEntitiesAux rest
    else c :: decodeEntitiesAux rest
termination_by cs => cs.length
decreasing_by
  all_goals simp [List.length_drop]
  omega

/-- Entity decoding on strings. -/
def decodeEntities (s : String) : String :=
  (decodeEntitiesAux s.data).asString

/-- The title pipeline of handleImport: strip tags with DOMPurify,
read the textContent of the parsed result, fall back to the stripped
string when the textContent is empty, and trim. -/
def finalTitleOf (s : String) : String :=
  let cleanTitle := stripTags s
  let textContent := decodeEntities cleanTitle
  (if textContent = "" then cleanTitle else textContent).trim

/-- A draft or published marker, used by both chapters and books. -/
inductive PubStatus where
  | draft
  | published
deriving DecidableEq

/-- An author entry of a book record (types.ts). -/
structure BookAuthor where
  name : String
  birth_year : Option Int
  death_year : Option Int
deriving DecidableEq

/-- A chapter of a book record (types.ts). -/
structure Chapter where
  id : String
  title : String
  content : String
  index : Nat
  status : PubStatus
deriving DecidableEq

/-- A book record as handleImport writes it (types.ts Book without
the id the database generates). -/
structure Book where
  title : String
  description : String
  coverUrl : String
  authors : List BookAuthor
  authorId : String
  subjects : List String
  languages : List String
  formats : List (String × String)
  download_count : Nat
  media_type : String
  bookshelves : List String
  source : String
  isOriginal : Bool
  contentType : String
  status : PubStatus
  createdAt : Nat
  updatedAt : Nat
  chapters : List Chapter
deriving DecidableEq

/-- A Firestore user entry as the target-author picker shows it. -/
structure FireAuthor where
  id : String
  name : String
deriving DecidableEq

/-- single or bundle import mode. -/
inductive ImportMode where
  | single
  | bundle
deriving DecidableEq

/-- The component state handleImport reads and writes, together with
the Firestore books collection it appends to. -/
structure AppState where
  posts : List WPPost
  selectedIds : Finset Nat
  targetAuthorId : String
  firestoreAuthors : List FireAuthor
  importMode : ImportMode
  importing : Bool
  status : String
  db : List Book
deriving DecidableEq

/-- The posts the import works on: the fetched posts whose id is in
the selection set, in fetched order. -/
def selectedPostsOf (s : AppState) : List WPPost :=
  s.posts.filter (fun p => decide (p.id ∈ s.selectedIds))

/-- Cover resolution of handleImport: when the post has a truthy
featured-media URL, try the upload and keep the empty string on
failure; otherwise the cover stays empty.  The upload parameter is the
determinized Cloudinary call: some url on success, none when the
upload throws. -/
def resolveCover (upload : String → Option String) (p : WPPost) : String :=
  match getFeaturedMediaUrl p with
  | some u =>
    if u = "" then ""
    else
      match upload u with
      | some r => r
      | none => ""
  | none => ""

/-- The author name written into a record:
targetAuthor name when chosen and nonempty (JS truthiness of
targetAuthor and of its name), else getAuthorName of the post. -/
def resolveAuthorName (targetAuthor : Option FireAuthor) (p : WPPost) : String :=
  match targetAuthor with
  | some a => if a.name = "" then getAuthorName p else a.name
  | none => getAuthorName p

/-- List map that also passes the running index, used for the chapter
arrays the source builds with map over an array. -/
def mapWithIndex {α β : Type} (f : Nat → α → β) : Nat → List α → List β
  | _, [] => []
  | i, a :: as => f i a :: mapWithIndex f (i + 1) as

/-- A chapter as both import branches build one. -/
def mkChapter (chId : String) (t : String) (content : String) (i : Nat) : Chapter :=
  { id := chId, title := t, content := content, index := i, status := .published }

/-- The record the single-post branch of handleImport builds for one
post.  ids is the supply of generated chapter ids and now the
Date.now() value. -/
def mkSingleBook (upload : String → Option String) (ids : Nat → String) (now : Nat)
    (targetAuthor : Option FireAuthor) (taid : String) (i : Nat) (p : WPPost) : Book :=
  let finalTitle := finalTitleOf p.title.rendered
  { title := finalTitle,
    description := stripTags p.excerpt.rendered,
    coverUrl := resolveCover upload p,
    authors := [{ name := resolveAuthorName targetAuthor p,
                  birth_year := none, death_year := none }],
    authorId := taid,
    subjects := ["Imported", "WordPress"],
    languages := ["Hindi"],
    formats := [],
    download_count := 0,
    media_type := "texts",
    bookshelves := [],
    source := "firestore",
    isOriginal := true,
    contentType := "article",
    status := .draft,
    createdAt := now,
    updatedAt := now,
    chapters := [mkChapter (ids i) finalTitle p.content.rendered 0] }

/-- The record the bundle branch of handleImport builds: one book
whose chapters are the chronological posts in order, with title,
description and cover taken from the first chronological post. -/
def mkBundleBook (upload : String → Option String) (ids : Nat → String) (now : Nat)
    (targetAuthor : Option FireAuthor) (taid : String)
    (chronologicalPosts : List WPPost) (firstPost : WPPost) : Book :=
  { title := finalTitleOf firstPost.title.rendered,
    description := stripTags firstPost.excerpt.rendered,
    coverUrl := resolveCover upload firstPost,
    authors := [{ name := resolveAuthorName targetAuthor firstPost,
                  birth_year := none, death_year := none }],
    authorId := taid,
    subjects := ["Imported", "Bundle", "WordPress"],
    languages := ["Hindi"],
    formats := [],
    download_count := 0,
    media_type := "texts",
    bookshelves := [],
    source := "firestore",
    isOriginal := true,
    contentType := "article",
    status := .draft,
    createdAt := now,
    updatedAt := now,
    chapters := mapWithIndex
      (fun i post => mkChapter (ids i) (finalTitleOf post.title.rendered)
        post.content.rendered i)
      0 chronologicalPosts }

/-- The records one run of handleImport appends, once both entry
guards have passed: the bundle branch reverses the selected posts so
the oldest comes first and builds a single record; every other case
runs the per-post loop. -/
def importBooks (s : AppState) (upload : String → Option String) (ids : Nat → String)
    (now : Nat) : List Book :=
  if s.importMode = ImportMode.bundle ∧ 0 < (selectedPostsOf s).length then
    match (selectedPostsOf s).reverse with
    | [] => []
    | firstPost :: rest =>
      [mkBundleBook upload ids now
        (s.firestoreAuthors.find? (fun a => a.id == s.targetAuthorId))
        s.targetAuthorId (firstPost :: rest) firstPost]
  else
    mapWithIndex
      (fun i p => mkSingleBook upload ids now
        (s.firestoreAuthors.find? (fun a => a.id == s.targetAuthorId))
        s.targetAuthorId i p)
      0 (selectedPostsOf s)

/-- The status message of the missing-target guard. -/
def importErrorMsg : String := "Error: Please select a target Wreadom author first."

/-- handleImport of App.tsx.  An empty selection returns at once with
nothing changed; a missing target author only sets the error status.
Otherwise the records of the active mode are appended to the books
collection, the selection is cleared and the final status reports the
count (in the model every addDoc succeeds, so successCount is the
number of selected posts in both branches, as in the source when no
write throws). -/
def handleImport (s : AppState) (upload : String → Option String) (ids : Nat → String)
    (now : Nat) : AppState :=
  if s.selectedIds.card = 0 then s
  else if s.targetAuthorId = "" then { s with status := importErrorMsg }
  else
    { s with
      importing := false,
      selectedIds := ∅,
      status := "Successfully imported " ++ toString (selectedPostsOf s).length
        ++ " posts as drafts!",
      db := s.db ++ importBooks s upload ids now }

/-- The date-range filter of App.tsx: a post passes when no start
bound is set or its date is at least the start bound, and no end bound
is set or its date is at most the end bound.  The Option models the
truthiness check on the bound strings: none is the empty input. -/
def filteredPosts (posts : List WPPost) (startDate endDate : Option Int) : List WPPost :=
  posts.filter (fun post =>
    (match startDate with
     | none => true
     | some sd => decide (sd ≤ post.date)) &&
    (match endDate with
     | none => true
     | some ed => decide (post.date ≤ ed)))

/-- toggleSelect of App.tsx: delete the id when present, add it when
absent. -/
def toggleSelect (selectedIds : Finset Nat) (id : Nat) : Finset Nat :=
  if id ∈ selectedIds then selectedIds.erase id else insert id selectedIds

/-- toggleAll of App.tsx: clear when the selection size equals the
nonzero number of filtered posts, else select the ids of every
filtered post. -/
def toggleAll (selectedIds : Finset Nat) (filtered : List WPPost) : Finset Nat :=
  if selectedIds.card = filtered.length ∧ 0 < filtered.length then ∅
  else (filtered.map (fun p => p.id)).toFinset

/-- Concrete post with an embedded author and a featured image, used
to instantiate theorems at concrete inputs. -/
def pA : WPPost :=
  { id := 1, title := ⟨"T1"⟩, content := ⟨"C1"⟩, excerpt := ⟨"E1"⟩,
    featured_media := 0, author := 7, date := 10,
    embeddedAuthors := [⟨7, "Anu"⟩], featuredMediaUrls := ["http:x"] }

/-- Concrete post with no embedded author and no featured image. -/
def pB : WPPost :=
  { id := 2, title := ⟨"T2"⟩, content := ⟨"C2"⟩, excerpt := ⟨"E2"⟩,
    featured_media := 0, author := 8, date := 20,
    embeddedAuthors := [], featuredMediaUrls := [] }

/-- Concrete component state: both posts fetched and selected, a
target author chosen, bundle mode. -/
def st0 : AppState :=
  { posts := [pA, pB], selectedIds := {1, 2}, targetAuthorId := "t1",
    firestoreAuthors := [⟨"t1", "Target"⟩], importMode := .bundle,
    importing := false, status := "", db := [] }

/-- The same state in single mode. -/
def st1 : AppState := { st0 with importMode := .single }

/-- Determinized upload that always succeeds. -/
def up0 : String → Option String := fun _ => some "cdn:y"

/-- Determinized upload that always fails. -/
def upFail : String → Option String := fun _ => none

/-- Concrete chapter-id supply. -/
def ids0 : Nat → String := fun n => "ch-" ++ toString n

/-- The bundle record one import run builds from a state, spelled out
from the pieces handleImport passes to mkBundleBook. -/
def bundleBookOf (s : AppState) (upload : String → Option String) (ids : Nat → String)
    (now : Nat) (firstPost : WPPost) (rest : List WPPost) : Book :=
  mkBundleBook upload ids now (s.firestoreAuthors.find? (fun a => a.id == s.targetAuthorId))
    s.targetAuthorId (firstPost :: rest) firstPost

/-- The per-post records one single-mode import run builds from a
state. -/
def singleBooksOf (s : AppState) (upload : String → Option String) (ids : Nat → String)
    (now : Nat) : List Book :=
  mapWithIndex
    (fun i p => mkSingleBook upload ids now
      (s.firestoreAuthors.find? (fun a => a.id == s.targetAuthorId)) s.targetAuthorId i p)
    0 (selectedPostsOf s)

lemma decodeEntitiesAux_eq_nil_iff (cs : List Char) :
    decodeEntitiesAux cs = [] ↔ cs = [] := by
  cases cs with
  | nil => simp [decodeEntitiesAux]
  | cons c rest =>
    simp only [decodeEntitiesAux]
    split
    · split <;> simp
    · simp

lemma decodeEntities_eq_empty {s : String} (h : decodeEntities s = "") : s = "" := by
  unfold decodeEntities at h
  have h2 : decodeEntitiesAux s.data = [] := by
    cases hd : decodeEntitiesAux s.data with
    | nil => rfl
    | cons a l =>
      rw [hd] at h
      exact absurd (congrArg String.data h) (by simp [List.asString])
  have h3 : s.data = [] := (decodeEntitiesAux_eq_nil_iff _).mp h2
  cases s
  simp_all

lemma finalTitleOf_eq (s : String) :
    finalTitleOf s = (decodeEntities (stripTags s)).trim := by
  show (if decodeEntities (stripTags s) = "" then stripTags s
    else decodeEntities (stripTags s)).trim = (decodeEntities (stripTags s)).trim
  by_cases h : decodeEntities (stripTags s) = ""
  · rw [if_pos h, h, decodeEntities_eq_empty h]
  · rw [if_neg h]

lemma mapWithIndex_length {α β : Type} (f : Nat → α → β) (k : Nat) (l : List α) :
    (mapWithIndex f k l).length = l.length := by
  induction l generalizing k with
  | nil => rfl
  | cons a as ih => simp [mapWithIndex, ih]

lemma mapWithIndex_get {α β : Type} (f : Nat → α → β) (l : List α) (k i : Nat)
    (h1 : i < (mapWithIndex f k l).length) (h2 : i < l.length) :
    (mapWithIndex f k l).get ⟨i, h1⟩ = f (k + i) (l.get ⟨i, h2⟩) := by
  induction l generalizing k i with
  | nil => simp at h2
  | cons a as ih =>
    cases i with
    | zero => rfl
    | succ n =>
      have hn : n < (mapWithIndex f (k + 1) as).length := by
        rw [mapWithIndex_length]
        simpa using h2
      have := ih (k := k + 1) (i := n) hn (by simpa using h2)
      simp only [mapWithIndex, List.get]
      rw [this]
      congr 1
      omega

lemma mapWithIndex_forall {α β : Type} (f : Nat → α → β) (P : β → Prop)
    (hf : ∀ i a, P (f i a)) (k : Nat) (l : List α) :
    ∀ b ∈ mapWithIndex f k l, P b := by
  induction l generalizing k with
  | nil => intro b hb; simp [mapWithIndex] at hb
  | cons a as ih =>
    intro b hb
    simp only [mapWithIndex, List.mem_cons] at hb
    rcases hb with h | h
    · rw [h]; exact hf k a
    · exact ih (k + 1) b h

lemma handleImport_run (s : AppState) (upload : String → Option String)
    (ids : Nat → String) (now : Nat)
    (hsel : ¬s.selectedIds.card = 0) (htarget : ¬s.targetAuthorId = "") :
    handleImport s upload ids now =
      { s with
        importing := false,
        selectedIds := ∅,
        status := "Successfully imported " ++ toString (selectedPostsOf s).length
          ++ " posts as drafts!",
        db := s.db ++ importBooks s upload ids now } := by
  unfold handleImport
  rw [if_neg hsel, if_neg htarget]

lemma importBooks_bundle (s : AppState) (upload : String → Option String)
    (ids : Nat → String) (now : Nat) (firstPost : WPPost) (rest : List WPPost)
    (hmode : s.importMode = ImportMode.bundle)
    (hrev : (selectedPostsOf s).reverse = firstPost :: rest) :
    importBooks s upload ids now = [bundleBookOf s upload ids now firstPost rest] := by
  have hlen : 0 < (selectedPostsOf s).length := by
    have := congrArg List.length hrev
    simp at this
    omega
  unfold importBooks
  rw [if_pos ⟨hmode, hlen⟩, hrev]
  rfl

lemma importBooks_single (s : AppState) (upload : String → Option String)
    (ids : Nat → String) (now : Nat)
    (hmode : s.importMode = ImportMode.single) :
    importBooks s upload ids now = singleBooksOf s upload ids now := by
  unfold importBooks
  rw [if_neg]
  · rfl
  · intro hc
    rw [hmode] at hc
    exact absurd hc.1 (by simp)

lemma selectedPosts_card_ne (s : AppState) (firstPost : WPPost) (rest : List WPPost)
    (hrev : (selectedPostsOf s).reverse = firstPost :: rest) :
    ¬s.selectedIds.card = 0 := by
  have hne : selectedPostsOf s ≠ [] := by
    intro hnil
    rw [hnil] at hrev
    simp at hrev
  obtain ⟨p, hp⟩ := List.exists_mem_of_ne_nil _ hne
  have hmem := (List.mem_filter.mp hp).2
  have hid : p.id ∈ s.selectedIds := by simpa using hmem
  exact Finset.card_ne_zero_of_mem hid

lemma mapSet_any_iff (m : List (Nat × WAuthor)) (k : Nat) :
    m.any (fun kv => decide (kv.1 = k)) = true ↔ k ∈ m.map (fun kv => kv.1) := by
  simp [List.any_eq_true]

lemma mapSet_fst_of_mem (m : List (Nat × WAuthor)) (k : Nat) (v : WAuthor)
    (hk : k ∈ m.map (fun kv => kv.1)) :
    (mapSet m k v).map (fun kv => kv.1) = m.map (fun kv => kv.1) := by
  unfold mapSet
  rw [if_pos ((mapSet_any_iff m k).mpr hk)]
  rw [List.map_map]
  apply List.map_congr_left
  intro kv _
  simp only [Function.comp]
  split
  · rename_i he
    exact he.symm
  · rfl

lemma mapSet_fst_of_not_mem (m : List (Nat × WAuthor)) (k : Nat) (v : WAuthor)
    (hk : k ∉ m.map (fun kv => kv.1)) :
    (mapSet m k v).map (fun kv => kv.1) = m.map (fun kv => kv.1) ++ [k] := by
  unfold mapSet
  rw [if_neg]
  · simp
  · intro hc
    exact hk ((mapSet_any_iff m k).mp hc)

lemma mapSet_fst_mem_iff (m : List (Nat × WAuthor)) (k : Nat) (v : WAuthor) (a : Nat) :
    a ∈ (mapSet m k v).map (fun kv => kv.1) ↔ a ∈ m.map (fun kv => kv.1) ∨ a = k := by
  by_cases hk : k ∈ m.map (fun kv => kv.1)
  · rw [mapSet_fst_of_mem m k v hk]
    constructor
    · exact Or.inl
    · rintro (h | h)
      · exact h
      · rw [h]; exact hk
  · rw [mapSet_fst_of_not_mem m k v hk]
    simp

lemma mapSet_nodup (m : List (Nat × WAuthor)) (k : Nat) (v : WAuthor)
    (h : (m.map (fun kv => kv.1)).Nodup) :
    ((mapSet m k v).map (fun kv => kv.1)).Nodup := by
  by_cases hk : k ∈ m.map (fun kv => kv.1)
  · rw [mapSet_fst_of_mem m k v hk]
    exact h
  · rw [mapSet_fst_of_not_mem m k v hk]
    simp [List.nodup_append, h, hk]

lemma mapSet_mem (m : List (Nat × WAuthor)) (k : Nat) (v : WAuthor) (kv : Nat × WAuthor)
    (h : kv ∈ mapSet m k v) : kv = (k, v) ∨ kv ∈ m := by
  unfold mapSet at h
  split at h
  · rw [List.mem_map] at h
    obtain ⟨kv0, hkv0, he⟩ := h
    by_cases hc : kv0.1 = k
    · rw [if_pos hc] at he
      exact Or.inl he.symm
    · rw [if_neg hc] at he
      rw [← he]
      exact Or.inr hkv0
  · rw [List.mem_append] at h
    rcases h with h | h
    · exact Or.inr h
    · simp at h
      exact Or.inl h

lemma authorFold_inv (big : List WPPost) (l : List WPPost) :
    ∀ (m : List (Nat × WAuthor)),
      (∀ p ∈ l, p ∈ big) →
      (m.map (fun kv => kv.1)).Nodup →
      (∀ kv ∈ m, kv.2.id = kv.1 ∧
        ∃ p ∈ big, p.author = kv.1 ∧ kv.2.name = getAuthorName p) →
      ((l.foldl authorStep m).map (fun kv => kv.1)).Nodup ∧
      (∀ kv ∈ l.foldl authorStep m, kv.2.id = kv.1 ∧
        ∃ p ∈ big, p.author = kv.1 ∧ kv.2.name = getAuthorName p) ∧
      (∀ a, a ∈ (l.foldl authorStep m).map (fun kv => kv.1) ↔
        a ∈ m.map (fun kv => kv.1) ∨ ∃ p ∈ l, p.author = a) := by
  induction l with
  | nil =>
    intro m _ h1 h2
    refine ⟨h1, h2, ?_⟩
    intro a
    simp
  | cons q l ih =>
    intro m hsub h1 h2
    have hq : q ∈ big := hsub q (by simp)
    have hstep1 : ((authorStep m q).map (fun kv => kv.1)).Nodup :=
      mapSet_nodup m q.author _ h1
    have hstep2 : ∀ kv ∈ authorStep m q, kv.2.id = kv.1 ∧
        ∃ p ∈ big, p.author = kv.1 ∧ kv.2.name = getAuthorName p := by
      intro kv hkv
      rcases mapSet_mem m q.author _ kv hkv with h | h
      · rw [h]
        exact ⟨rfl, q, hq, rfl, rfl⟩
      · exact h2 kv h
    have hsub2 : ∀ p ∈ l, p ∈ big := fun p hp => hsub p (by simp [hp])
    obtain ⟨c1, c2, c3⟩ := ih (authorStep m q) hsub2 hstep1 hstep2
    refine ⟨c1, c2, ?_⟩
    intro a
    rw [List.foldl_cons] at *
    rw [c3 a]
    unfold authorStep
    rw [mapSet_fst_mem_iff]
    constructor
    · rintro ((h | h) | ⟨p, hp, hpa⟩)
      · exact Or.inl h
      · exact Or.inr ⟨q, by simp, h.symm⟩
      · exact Or.inr ⟨p, by simp [hp], hpa⟩
    · rintro (h | ⟨p, hp, hpa⟩)
      · exact Or.inl (Or.inl h)
      · rcases List.mem_cons.mp hp with he | hm
        · exact Or.inl (Or.inr (by rw [he] at hpa; exact hpa.symm))
        · exact Or.inr ⟨p, hm, hpa⟩

/-- C8: toggling the selection of the same post id twice returns the
selection set to its original value; a single toggle removes the id
exactly when it was present and adds it exactly when it was absent. -/
theorem toggleSelect_involutive (s : Finset Nat) (x : Nat) :
    toggleSelect (toggleSelect s x) x = s ∧
    (x ∈ s → toggleSelect s x = s.erase x) ∧
    (x ∉ s → toggleSelect s x = insert x s) ∧
    (x ∈ toggleSelect s x ↔ x ∉ s) := by
  by_cases h : x ∈ s
  · have h1 : toggleSelect s x = s.erase x := by rw [toggleSelect, if_pos h]
    refine ⟨?_, fun _ => h1, fun hc => absurd h hc, ?_⟩
    · rw [h1, toggleSelect, if_neg (Finset.not_mem_erase x s),
        Finset.insert_erase h]
    · rw [h1]
      simp [h]
  · have h1 : toggleSelect s x = insert x s := by rw [toggleSelect, if_neg h]
    refine ⟨?_, fun hc => absurd hc h, fun _ => h1, ?_⟩
    · rw [h1, toggleSelect, if_pos (Finset.mem_insert_self x s),
        Finset.erase_insert h]
    · rw [h1]
      simp [h]

/-- C8 witness: the double toggle at a concrete set and id, with each
single-toggle case exercised. -/
theorem toggleSelect_involutive_witness :
    toggleSelect (toggleSelect {1, 2} 5) 5 = ({1, 2} : Finset Nat) ∧
    toggleSelect {1, 2} 1 = ({1, 2} : Finset Nat).erase 1 ∧
    toggleSelect {1, 2} 5 = insert 5 ({1, 2} : Finset Nat) :=
  ⟨(toggleSelect_involutive {1, 2} 5).1,
   (toggleSelect_involutive {1, 2} 1).2.1 (by decide),
   (toggleSelect_involutive {1, 2} 5).2.2.1 (by decide)⟩

/-- C10: toggleAll clears the selection exactly when the selection
size equals the nonzero count of filtered posts, whatever ids the
selection holds; in every other case the new selection is the set of
ids of all filtered posts. -/
theorem toggleAll_spec (s : Finset Nat) (fp : List WPPost) :
    (s.card = fp.length ∧ 0 < fp.length → toggleAll s fp = ∅) ∧
    (¬(s.card = fp.length ∧ 0 < fp.length) →
      toggleAll s fp = (fp.map (fun p => p.id)).toFinset ∧
      ∀ x, x ∈ toggleAll s fp ↔ ∃ p ∈ fp, p.id = x) := by
  constructor
  · intro h
    rw [toggleAll, if_pos h]
  · intro h
    have h1 : toggleAll s fp = (fp.map (fun p => p.id)).toFinset := by
      rw [toggleAll, if_neg h]
    refine ⟨h1, fun x => ?_⟩
    rw [h1, List.mem_toFinset, List.mem_map]

/-- C10 witness: a selection whose id is not among the filtered posts
still clears when the sizes match, and a mismatched size selects all
filtered ids. -/
theorem toggleAll_spec_witness :
    toggleAll {9} [pA] = ∅ ∧
    toggleAll {1, 9} [pA] = ([pA].map (fun p => p.id)).toFinset :=
  ⟨(toggleAll_spec {9} [pA]).1 (by decide),
   ((toggleAll_spec {1, 9} [pA]).2 (by decide)).1⟩

/-- C6: the date filter is a pure view over the fetched posts: it
keeps order (the result is a sublist of the input), a post is in the
result exactly when it is a fetched post within the set bounds, and
with both bounds unset the result is the fetched list itself. -/
theorem filteredPosts_date_range (posts : List WPPost) (sd ed : Option Int) :
    (filteredPosts posts sd ed).Sublist posts ∧
    (∀ p, p ∈ filteredPosts posts sd ed ↔
      p ∈ posts ∧ (∀ d, sd = some d → d ≤ p.date) ∧ (∀ d, ed = some d → p.date ≤ d)) ∧
    filteredPosts posts none none = posts := by
  refine ⟨List.filter_sublist _, fun p => ?_, ?_⟩
  · rw [filteredPosts, List.mem_filter]
    constructor
    · rintro ⟨hp, hcond⟩
      rw [Bool.and_eq_true] at hcond
      refine ⟨hp, ?_, ?_⟩
      · intro d hd
        rw [hd] at hcond
        simpa using hcond.1
      · intro d hd
        rw [hd] at hcond
        simpa using hcond.2
    · rintro ⟨hp, h1, h2⟩
      refine ⟨hp, ?_⟩
      rw [Bool.and_eq_true]
      constructor
      · cases sd with
        | none => rfl
        | some d => simpa using h1 d rfl
      · cases ed with
        | none => rfl
        | some d => simpa using h2 d rfl
  · rw [filteredPosts]
    simp

/-- C6 witness: the bounds applied to two concrete posts, and the
unbounded filter returning the list unchanged. -/
theorem filteredPosts_date_range_witness :
    (pB ∈ filteredPosts [pA, pB] (some 15) none ∧
      pA ∉ filteredPosts [pA, pB] (some 15) none) ∧
    filteredPosts [pA, pB] none none = [pA, pB] := by
  refine ⟨⟨?_, ?_⟩, (filteredPosts_date_range [pA, pB] none none).2.2⟩
  · exact ((filteredPosts_date_range [pA, pB] (some 15) none).2.1 pB).mpr
      ⟨by decide, by intro d hd; cases hd; decide, by intro d hd; cases hd⟩
  · intro hc
    have := (((filteredPosts_date_range [pA, pB] (some 15) none).2.1 pA).mp hc).2.1 15 rfl
    revert this
    decide

/-- C9: handleImport is guarded at entry: an empty selection returns
the state untouched with no write, and a nonempty selection without a
chosen target author only sets the error status message and writes
nothing. -/
theorem handleImport_entry_guards (s : AppState) (upload : String → Option String)
    (ids : Nat → String) (now : Nat) :
    (s.selectedIds = ∅ → handleImport s upload ids now = s) ∧
    (s.selectedIds ≠ ∅ → s.targetAuthorId = "" →
      handleImport s upload ids now = { s with status := importErrorMsg } ∧
      (handleImport s upload ids now).db = s.db) := by
  constructor
  · intro h
    rw [handleImport, if_pos (by rw [h]; rfl)]
  · intro h1 h2
    have hc : ¬s.selectedIds.card = 0 := by
      rw [Finset.card_eq_zero]
      exact h1
    have he : handleImport s upload ids now = { s with status := importErrorMsg } := by
      rw [handleImport, if_neg hc, if_pos h2]
    exact ⟨he, by rw [he]⟩

/-- C9 witness: the two guards at concrete states: empty selection
returns the state itself, missing target author only sets the error
status. -/
theorem handleImport_entry_guards_witness :
    handleImport { st0 with selectedIds := ∅ } up0 ids0 5 =
      { st0 with selectedIds := ∅ } ∧
    handleImport { st0 with targetAuthorId := "" } up0 ids0 5 =
      { st0 with targetAuthorId := "", status := importErrorMsg } :=
  ⟨(handleImport_entry_guards { st0 with selectedIds := ∅ } up0 ids0 5).1 rfl,
   ((handleImport_entry_guards { st0 with targetAuthorId := "" } up0 ids0 5).2
      (by decide) rfl).1⟩

/-- C4: for every post the import writes, the record title is the
rendered title with tags stripped, entities decoded and ends trimmed,
and the record description is the rendered excerpt with tags stripped;
this holds for the single-post record and for the bundle record built
from the chronologically first post. -/
theorem import_title_excerpt_sanitized (upload : String → Option String)
    (ids : Nat → String) (now : Nat) (ta : Option FireAuthor) (taid : String) :
    (∀ i p, (mkSingleBook upload ids now ta taid i p).title =
        (decodeEntities (stripTags p.title.rendered)).trim ∧
      (mkSingleBook upload ids now ta taid i p).description =
        stripTags p.excerpt.rendered) ∧
    (∀ chron firstPost,
      (mkBundleBook upload ids now ta taid chron firstPost).title =
        (decodeEntities (stripTags firstPost.title.rendered)).trim ∧
      (mkBundleBook upload ids now ta taid chron firstPost).description =
        stripTags firstPost.excerpt.rendered) := by
  constructor
  · intro i p
    exact ⟨finalTitleOf_eq p.title.rendered, rfl⟩
  · intro chron firstPost
    exact ⟨finalTitleOf_eq firstPost.title.rendered, rfl⟩

/-- C4 witness: the sanitization equations at a concrete post whose
title carries a tag, an entity and padding. -/
theorem import_title_excerpt_sanitized_witness :
    (mkSingleBook up0 ids0 5 none "t1" 0
        { pA with title := ⟨" <b>A &amp; B</b> "⟩ }).title =
      (decodeEntities (stripTags " <b>A &amp; B</b> ")).trim ∧
    (mkSingleBook up0 ids0 5 none "t1" 0
        { pA with title := ⟨" <b>A &amp; B</b> "⟩ }).description =
      stripTags pA.excerpt.rendered :=
  (import_title_excerpt_sanitized up0 ids0 5 none "t1").1 0
    { pA with title := ⟨" <b>A &amp; B</b> "⟩ }

/-- C3: every record one run of handleImport writes is appended to the
books collection and has status draft: the new collection is the old
one followed by the new records, so existing records are never
modified or deleted, in single mode and in bundle mode alike. -/
theorem handleImport_append_only_drafts (s : AppState) (upload : String → Option String)
    (ids : Nat → String) (now : Nat) :
    ∃ newBooks : List Book,
      (handleImport s upload ids now).db = s.db ++ newBooks ∧
      ∀ b ∈ newBooks, b.status = PubStatus.draft := by
  by_cases h0 : s.selectedIds.card = 0
  · refine ⟨[], ?_, by intro b hb; simp at hb⟩
    rw [handleImport, if_pos h0]
    simp
  · by_cases h1 : s.targetAuthorId = ""
    · refine ⟨[], ?_, by intro b hb; simp at hb⟩
      rw [handleImport, if_neg h0, if_pos h1]
      simp
    · refine ⟨importBooks s upload ids now, ?_, ?_⟩
      · rw [handleImport_run s upload ids now h0 h1]
      · intro b hb
        rw [importBooks] at hb
        split at hb
        · split at hb
          · simp at hb
          · rw [List.mem_singleton] at hb
            rw [hb]
            rfl
        · exact mapWithIndex_forall _ (fun b => b.status = PubStatus.draft)
            (fun i p => rfl) 0 (selectedPostsOf s) b hb

/-- C3 witness: a concrete single-mode run appends two draft records
to an empty collection. -/
theorem handleImport_append_only_drafts_witness :
    ∃ newBooks : List Book,
      (handleImport st1 up0 ids0 5).db = st1.db ++ newBooks ∧
      ∀ b ∈ newBooks, b.status = PubStatus.draft :=
  handleImport_append_only_drafts st1 up0 ids0 5

lemma list_get_congr {α : Type} (l1 l2 : List α) (hl : l1 = l2) (i : Nat)
    (h1 : i < l1.length) (h2 : i < l2.length) :
    l1.get ⟨i, h1⟩ = l2.get ⟨i, h2⟩ := by
  subst hl
  rfl

/-- C2: a nonempty selection imported in bundle mode appends exactly
one book record; its chapter list is the reverse of the selected
posts in fetched order, the chapter at position i carries index i and
the content of the corresponding chronological post, and the record
title, description and cover come from the chronologically first
post. -/
theorem handleImport_bundle_book (s : AppState) (upload : String → Option String)
    (ids : Nat → String) (now : Nat) (firstPost : WPPost) (rest : List WPPost)
    (hmode : s.importMode = ImportMode.bundle)
    (htarget : s.targetAuthorId ≠ "")
    (hrev : (selectedPostsOf s).reverse = firstPost :: rest) :
    (handleImport s upload ids now).db =
      s.db ++ [bundleBookOf s upload ids now firstPost rest] ∧
    (bundleBookOf s upload ids now firstPost rest).chapters.length =
      (selectedPostsOf s).reverse.length ∧
    (∀ i (h1 : i < (bundleBookOf s upload ids now firstPost rest).chapters.length)
        (h2 : i < (selectedPostsOf s).reverse.length),
      ((bundleBookOf s upload ids now firstPost rest).chapters.get ⟨i, h1⟩).index = i ∧
      ((bundleBookOf s upload ids now firstPost rest).chapters.get ⟨i, h1⟩).content =
        ((selectedPostsOf s).reverse.get ⟨i, h2⟩).content.rendered) ∧
    (bundleBookOf s upload ids now firstPost rest).title =
      finalTitleOf firstPost.title.rendered ∧
    (bundleBookOf s upload ids now firstPost rest).description =
      stripTags firstPost.excerpt.rendered ∧
    (bundleBookOf s upload ids now firstPost rest).coverUrl =
      resolveCover upload firstPost := by
  have hsel := selectedPosts_card_ne s firstPost rest hrev
  have hch : (bundleBookOf s upload ids now firstPost rest).chapters =
      mapWithIndex
        (fun i post => mkChapter (ids i) (finalTitleOf post.title.rendered)
          post.content.rendered i)
        0 (firstPost :: rest) := rfl
  refine ⟨?_, ?_, ?_, rfl, rfl, rfl⟩
  · rw [handleImport_run s upload ids now hsel htarget,
      importBooks_bundle s upload ids now firstPost rest hmode hrev]
  · rw [hch, mapWithIndex_length, hrev]
  · intro i h1 h2
    have h2r : i < (firstPost :: rest).length := by rw [← hrev]; exact h2
    have h1r : i < (mapWithIndex
        (fun i post => mkChapter (ids i) (finalTitleOf post.title.rendered)
          post.content.rendered i)
        0 (firstPost :: rest)).length := by rw [← hch]; exact h1
    have hget : ((bundleBookOf s upload ids now firstPost rest).chapters.get ⟨i, h1⟩) =
        mkChapter (ids (0 + i))
          (finalTitleOf ((firstPost :: rest).get ⟨i, h2r⟩).title.rendered)
          ((firstPost :: rest).get ⟨i, h2r⟩).content.rendered (0 + i) := by
      rw [list_get_congr _ _ hch i h1 h1r]
      exact mapWithIndex_get
        (fun i post => mkChapter (ids i) (finalTitleOf post.title.rendered)
          post.content.rendered i)
        (firstPost :: rest) 0 i h1r h2r
    have hgp : (selectedPostsOf s).reverse.get ⟨i, h2⟩ =
        (firstPost :: rest).get ⟨i, h2r⟩ :=
      list_get_congr _ _ hrev i h2 h2r
    rw [hget, hgp]
    exact ⟨by simp [mkChapter], rfl⟩

/-- C2 witness: the concrete bundle run over two selected posts: one
record appended, chapters in reverse fetched order with indices 0 and
1, and title, description and cover from the chronologically first
post. -/
theorem handleImport_bundle_book_witness :
    (handleImport st0 up0 ids0 5).db =
      st0.db ++ [bundleBookOf st0 up0 ids0 5 pB [pA]] ∧
    (bundleBookOf st0 up0 ids0 5 pB [pA]).chapters.length =
      (selectedPostsOf st0).reverse.length ∧
    (bundleBookOf st0 up0 ids0 5 pB [pA]).title = finalTitleOf pB.title.rendered :=
  have h := handleImport_bundle_book st0 up0 ids0 5 pB [pA] rfl (by decide) (by decide)
  ⟨h.1, h.2.1, h.2.2.2.1⟩

/-- C7: the featured-image upload is optional in effect: a post with
no embedded featured media, or whose upload fails, still yields a
record with an empty coverUrl; a single-mode run persists one record
per selected post whatever the upload outcomes, and the bundle record
is built whatever the cover resolution of its first post. -/
theorem cover_upload_optional (s : AppState) (upload : String → Option String)
    (ids : Nat → String) (now : Nat) (p : WPPost) (u : String)
    (hsel : ¬s.selectedIds.card = 0) (htarget : s.targetAuthorId ≠ "")
    (hmode : s.importMode = ImportMode.single) :
    (getFeaturedMediaUrl p = none → resolveCover upload p = "") ∧
    (getFeaturedMediaUrl p = some u → upload u = none → resolveCover upload p = "") ∧
    (∀ i ta taid, (mkSingleBook upload ids now ta taid i p).coverUrl =
      resolveCover upload p) ∧
    (∀ chron firstPost ta taid,
      (mkBundleBook upload ids now ta taid chron firstPost).coverUrl =
        resolveCover upload firstPost) ∧
    (handleImport s upload ids now).db = s.db ++ singleBooksOf s upload ids now ∧
    (handleImport s upload ids now).db.length =
      s.db.length + (selectedPostsOf s).length := by
  have hdb : (handleImport s upload ids now).db =
      s.db ++ singleBooksOf s upload ids now := by
    rw [handleImport_run s upload ids now hsel htarget,
      importBooks_single s upload ids now hmode]
  refine ⟨?_, ?_, fun i ta taid => rfl, fun chron firstPost ta taid => rfl, hdb, ?_⟩
  · intro h
    simp only [resolveCover, h]
  · intro h hu
    simp only [resolveCover, h]
    by_cases he : u = ""
    · rw [if_pos he]
    · rw [if_neg he, hu]
  · rw [hdb]
    rw [List.length_append, singleBooksOf, mapWithIndex_length]

/-- C7 witness: a run where every upload fails and one selected post
has no featured media: both records are still persisted and both
covers are empty. -/
theorem cover_upload_optional_witness :
    (getFeaturedMediaUrl pB = none → resolveCover upFail pB = "") ∧
    (getFeaturedMediaUrl pA = some "http:x" → upFail "http:x" = none →
      resolveCover upFail pA = "") ∧
    (handleImport st1 upFail ids0 5).db.length =
      st1.db.length + (selectedPostsOf st1).length :=
  have h := cover_upload_optional st1 upFail ids0 5 pA "http:x"
    (by decide) (by decide) rfl
  have h2 := cover_upload_optional st1 upFail ids0 5 pB "u"
    (by decide) (by decide) rfl
  ⟨fun hm => h2.1 hm, fun hm hu => h.2.1 hm hu, h.2.2.2.2.2⟩

/-- C5: for every list of posts the recent-posts query returns, the
discovered author entries have pairwise distinct ids, there is exactly
one entry per author id occurring in the posts, and every entry name
is the resolved display name (embedded author name when present, the
User fallback otherwise) of a post with that author id. -/
theorem fetchAuthors_distinct_ids (posts : List WPPost) :
    ((fetchAuthorsFromRecentPosts posts).map (fun a => a.id)).Nodup ∧
    (∀ a : Nat, (∃ p ∈ posts, p.author = a) ↔
      ∃ e ∈ fetchAuthorsFromRecentPosts posts, e.id = a) ∧
    (∀ e ∈ fetchAuthorsFromRecentPosts posts,
      ∃ p ∈ posts, p.author = e.id ∧ e.name = getAuthorName p) := by
  obtain ⟨c1, c2, c3⟩ :=
    authorFold_inv posts posts [] (fun p hp => hp) (by simp) (by simp)
  have hids : (fetchAuthorsFromRecentPosts posts).map (fun a => a.id) =
      (posts.foldl authorStep []).map (fun kv => kv.1) := by
    rw [fetchAuthorsFromRecentPosts, List.map_map]
    apply List.map_congr_left
    intro kv hkv
    simpa using (c2 kv hkv).1
  refine ⟨?_, ?_, ?_⟩
  · rw [hids]
    exact c1
  · intro a
    constructor
    · intro hex
      have hkey : a ∈ (posts.foldl authorStep []).map (fun kv => kv.1) :=
        (c3 a).mpr (Or.inr hex)
      rw [← hids, List.mem_map] at hkey
      obtain ⟨e, he, heq⟩ := hkey
      exact ⟨e, he, heq⟩
    · rintro ⟨e, he, heq⟩
      rw [fetchAuthorsFromRecentPosts, List.mem_map] at he
      obtain ⟨kv, hkv, hkve⟩ := he
      obtain ⟨hid, p, hp, hpa, hpn⟩ := c2 kv hkv
      refine ⟨p, hp, ?_⟩
      rw [hpa, ← hid, hkve, heq]
  · intro e he
    rw [fetchAuthorsFromRecentPosts, List.mem_map] at he
    obtain ⟨kv, hkv, hkve⟩ := he
    obtain ⟨hid, p, hp, hpa, hpn⟩ := c2 kv hkv
    refine ⟨p, hp, ?_, ?_⟩
    · rw [← hkve, hid, ← hpa]
    · rw [← hkve]
      exact hpn

/-- C5 witness: three posts with a repeated author id: the ids are
distinct, id 7 is represented, and the entry for id 8 carries the
User fallback name of a post with author 8. -/
theorem fetchAuthors_distinct_ids_witness :
    ((fetchAuthorsFromRecentPosts [pA, pB, pA]).map (fun a => a.id)).Nodup ∧
    (∃ e ∈ fetchAuthorsFromRecentPosts [pA, pB, pA], e.id = 7) ∧
    (∃ p ∈ [pA, pB, pA], p.author = (WAuthor.mk 8 "User 8").id ∧
      (WAuthor.mk 8 "User 8").name = getAuthorName p) :=
  have h := fetchAuthors_distinct_ids [pA, pB, pA]
  ⟨h.1, (h.2.1 7).mp ⟨pA, by decide, by decide⟩,
    h.2.2 (WAuthor.mk 8 "User 8") (by decide)⟩

/-- C1: author discovery follows the three-tier fallback chain: with
credentials set, a successful direct listing is used first, a failed
direct listing falls back to authenticated recent-posts discovery, a
second failure falls back to unauthenticated discovery, and when every
strategy fails the shown author list stays empty (from the initial
empty state) while the status carries the user-facing failure message;
without credentials only the unauthenticated discovery matters, with
the same failure report. -/
theorem discoverAuthors_fallback_chain (d r1 r0 : FetchOutcome) (st : DiscoverState) :
    (∀ l, l ≠ [] →
      ((d = .ok l → (discoverAuthors true d r1 r0 st).availableAuthors = l) ∧
       (d = .err → r1 = .ok l →
         (discoverAuthors true d r1 r0 st).availableAuthors = l) ∧
       (d = .err → r1 = .err → r0 = .ok l →
         (discoverAuthors true d r1 r0 st).availableAuthors = l) ∧
       (r0 = .ok l → (discoverAuthors false d r1 r0 st).availableAuthors = l))) ∧
    (specAuthorChain true d r1 r0 = .err ↔ d = .err ∧ r1 = .err ∧ r0 = .err) ∧
    (d = .err → r1 = .err → r0 = .err →
      (discoverAuthors true d r1 r0 ⟨[], ""⟩).availableAuthors = [] ∧
      (discoverAuthors true d r1 r0 st).status =
        "Unable to sync authors. Site might be restricted.") ∧
    (discoverAuthors false d r1 r0 st = discoverAuthors false .err .err r0 st) ∧
    (r0 = .err →
      (discoverAuthors false d r1 r0 st).status =
        "Unable to sync authors. Site might be restricted." ∧
      (discoverAuthors false d r1 r0 ⟨[], ""⟩).availableAuthors = []) := by
  refine ⟨?_, ?_, ?_, rfl, ?_⟩
  · intro l hl
    have hlen : 0 < l.length := List.length_pos_iff_ne_nil.mpr hl
    refine ⟨?_, ?_, ?_, ?_⟩
    · intro he
      subst he
      simp [discoverAuthors, hlen]
    · intro he h1
      subst he
      subst h1
      simp [discoverAuthors, hlen]
    · intro he h1 h0
      subst he
      subst h1
      subst h0
      simp [discoverAuthors, hlen]
    · intro h0
      subst h0
      simp [discoverAuthors, hlen]
  · cases d <;> cases r1 <;> cases r0 <;> simp [specAuthorChain]
  · intro he h1 h0
    subst he
    subst h1
    subst h0
    exact ⟨rfl, rfl⟩
  · intro h0
    subst h0
    exact ⟨rfl, rfl⟩

/-- C1 witness: all three strategies failing leaves the empty author
list and the failure status, while a successful direct listing is
used as is. -/
theorem discoverAuthors_fallback_chain_witness :
    (discoverAuthors true .err .err .err ⟨[], ""⟩).availableAuthors = [] ∧
    (discoverAuthors true .err .err .err ⟨[], "x"⟩).status =
      "Unable to sync authors. Site might be restricted." ∧
    (discoverAuthors true (.ok [⟨7, "Anu"⟩]) .err .err ⟨[], ""⟩).availableAuthors =
      [⟨7, "Anu"⟩] :=
  have h := discoverAuthors_fallback_chain .err .err .err ⟨[], "x"⟩
  have h2 := discoverAuthors_fallback_chain (.ok [⟨7, "Anu"⟩]) .err .err ⟨[], ""⟩
  ⟨((discoverAuthors_fallback_chain .err .err .err ⟨[], ""⟩).2.2.1 rfl rfl rfl).1,
   (h.2.2.1 rfl rfl rfl).2,
   (h2.1 [⟨7, "Anu"⟩] (by decide)).1 rfl⟩
